import Mathlib

/-!
Verification of the chunking / retry / translation-client core of the
go_ai_translate repository (package `translator`).

Embedding conventions:
- Go strings are byte sequences; we model them as `List Char`, one `Char`
  per byte, and `len` as `List.length`.
- Go `int` values that the code compares against `0` keep their sign
  (`maxRetries : Int`); `ChunkSize` is modelled as `Nat`, since every claim
  constrains it to be positive and the token arithmetic never goes negative.
- `int(float64(chunkSize) * 0.8)` is modelled as `chunkSize * 4 / 5`: for
  every operand below 2^51 the float64 product rounds to a value whose
  truncation equals the exact floor, because 0.8's representation error is
  far below half an ulp at these magnitudes.
- The fixed-width slicing loop (`for i := 0; i < len; i += step`) does not
  terminate when `step = 0`, so it is modelled with explicit fuel returning
  `Option`; `none` models divergence.  The fuel passed by `splitIntoChunks`
  is proven sufficient whenever `ChunkSize ≥ 1`.
- The HTTP transport is an abstract capability `Nat → TransportResult`
  giving the outcome of each attempt; exact formatting of transport error
  messages is abstracted (no claim depends on it).
-/

namespace GoAiTranslate

/-- The characters of a Lean string literal, used to write concrete inputs. -/
def strL (s : String) : List Char := s.data

/-- Whitespace as used by Go `strings.Fields` / `unicode.IsSpace`,
restricted to the ASCII whitespace characters. -/
def isSpaceChar (c : Char) : Bool :=
  c = ' ' || c = '\t' || c = '\n' || c = '\r' || c = '\x0b' || c = '\x0c'

/-- The `"\n\n"` paragraph separator. -/
def newline2 : List Char := ['\n', '\n']

/-- Leftmost occurrence of `pat` in `s`: `some (before, after)` splits `s`
around the first occurrence, `none` if there is none.  This is the search
primitive underlying Go `strings.Split`. -/
def findSplit (pat : List Char) : List Char → Option (List Char × List Char)
  | [] => if pat.isPrefixOf ([] : List Char) then some ([], []) else none
  | c :: cs =>
    if pat.isPrefixOf (c :: cs) then some ([], (c :: cs).drop pat.length)
    else (findSplit pat cs).map (fun pr => (c :: pr.1, pr.2))

/-- Go `strings.Split(s, sep)` with non-empty separator `c :: cs`, written
with fuel (one unit per separator occurrence); `splitOnSep` passes fuel
`s.length`, which is proven sufficient (`splitOnAux_join`). -/
def splitOnAux (c : Char) (cs : List Char) : Nat → List Char → List (List Char)
  | 0, s => [s]
  | f + 1, s =>
    match findSplit (c :: cs) s with
    | none => [s]
    | some (a, rest) => a :: splitOnAux c cs f rest

/-- Go `strings.Split(s, string(c :: cs))`. -/
def splitOnSep (c : Char) (cs : List Char) (s : List Char) : List (List Char) :=
  splitOnAux c cs s.length s

/-- Word accumulator for `fields` (Go `strings.Fields`). -/
def fieldsAux : List Char → List Char → List (List Char)
  | [], acc => if acc.isEmpty then [] else [acc]
  | c :: cs, acc =>
    if isSpaceChar c then
      if acc.isEmpty then fieldsAux cs [] else acc :: fieldsAux cs []
    else fieldsAux cs (acc ++ [c])

/-- Go `strings.Fields`: the maximal whitespace-free words of `s`, in order. -/
def fields (s : List Char) : List (List Char) := fieldsAux s []

/-- Join a list of strings with a separator between consecutive elements. -/
def joinSep (sep : List Char) : List (List Char) → List Char
  | [] => []
  | [x] => x
  | x :: y :: rest => x ++ sep ++ joinSep sep (y :: rest)

/-- Whitespace normalization from the spec (and the repository's test
helper `normalizeText`): collapse whitespace runs into single spaces and
trim the ends, i.e. join `strings.Fields` with `" "`. -/
def normalizeText (s : List Char) : List Char := joinSep [' '] (fields s)

/-- The test helper `endsWithNewline`: non-empty and last byte `'\n'`. -/
def endsWithNewline (s : List Char) : Bool :=
  s.getLast? = some '\n'

/-- The reconstruction rule of the spec's lossless-reconstruction
invariant: concatenate the chunks in order, inserting `"\n\n"` between
consecutive chunks whenever the earlier chunk does not end with a newline. -/
def reconstruct : List (List Char) → List Char
  | [] => []
  | [x] => x
  | x :: y :: rest =>
    x ++ (if endsWithNewline x then [] else newline2) ++ reconstruct (y :: rest)

/-- The `translator.Config` struct. -/
structure Config where
  apiKey : List Char
  toLang : List Char
  chunkSize : Nat
  model : List Char
  verbose : Bool
  maxRetries : Int

/-- Lines 139-142 of the translator: `int(float64(ChunkSize)*0.8)`, falling
back to the raw `ChunkSize` when that is below 100. -/
def effectiveChunkSize (chunkSize : Nat) : Nat :=
  let e := chunkSize * 4 / 5
  if e < 100 then chunkSize else e

/-- The mutable state of the chunking loop: accumulated chunks, the chunk
being built, and its running token estimate. -/
structure SplitState where
  chunks : List (List Char)
  currentChunk : List Char
  currentTokens : Nat

/-- One iteration of the line-packing loop (translator lines 169-184). -/
def addLine (eff : Nat) (st : SplitState) (line : List Char) : SplitState :=
  let lineTokens := line.length / 4
  if 0 < st.currentTokens ∧ eff < st.currentTokens + lineTokens + 1 then
    ⟨st.chunks ++ [st.currentChunk], line, lineTokens⟩
  else if 0 < st.currentTokens then
    ⟨st.chunks, st.currentChunk ++ ['\n'] ++ line, st.currentTokens + 1 + lineTokens⟩
  else
    ⟨st.chunks, st.currentChunk ++ line, st.currentTokens + lineTokens⟩

/-- One iteration of the sentence-packing loop (lines 215-226): note the
absence of any joiner text between accumulated sentences. -/
def addSentence (eff : Nat) (st : SplitState) (s : List Char) : SplitState :=
  let sentenceTokens := s.length / 4
  if 0 < st.currentTokens ∧ eff < st.currentTokens + sentenceTokens then
    ⟨st.chunks ++ [st.currentChunk], s, sentenceTokens⟩
  else
    ⟨st.chunks, st.currentChunk ++ s, st.currentTokens + sentenceTokens⟩

/-- One iteration of the paragraph-packing path (lines 231-245), for a
paragraph whose own estimate fits the effective budget. -/
def addParagraphSmall (eff : Nat) (st : SplitState) (p : List Char) : SplitState :=
  let paragraphTokens := p.length / 4
  if 0 < st.currentTokens ∧ eff < st.currentTokens + paragraphTokens + 1 then
    ⟨st.chunks ++ [st.currentChunk], p, paragraphTokens⟩
  else if 0 < st.currentTokens then
    ⟨st.chunks, st.currentChunk ++ newline2 ++ p, st.currentTokens + 1 + paragraphTokens⟩
  else
    ⟨st.chunks, st.currentChunk ++ p, st.currentTokens + paragraphTokens⟩

/-- Lines 248-252: flush the running buffer when its estimate reaches the
effective budget (the early-flush policy). -/
def flushIfFull (eff : Nat) (st : SplitState) : SplitState :=
  if eff ≤ st.currentTokens then ⟨st.chunks ++ [st.currentChunk], [], 0⟩ else st

/-- One splitter pass of the sentence-boundary scan (lines 191-199): split
the remaining text on `[c, ' ']`; when it splits, keep every part but the
last with the splitter's first byte re-attached, and continue on the last
part. -/
def sentenceStep (st : List (List Char) × List Char) (c : Char) :
    List (List Char) × List Char :=
  let parts := splitOnSep c [' '] st.2
  if 1 < parts.length then
    (st.1 ++ parts.dropLast.map (fun p => p ++ [c]), parts.getLastD [])
  else st

/-- Lines 187-203: scan with the four sentence splitters in order, then
append the trailing remainder if non-empty. -/
def buildSentences (p : List Char) : List (List Char) :=
  let st := (['.', '!', '?', ';'] : List Char).foldl sentenceStep ([], p)
  if st.2 ≠ [] then st.1 ++ [st.2] else st.1

/-- Lines 206-212: the fixed-width slicing loop, with explicit fuel.
`none` models the divergence of the Go loop when `step = 0`. -/
def sliceLoop : Nat → Nat → List Char → Option (List (List Char))
  | _, _, [] => some []
  | 0, _, _ :: _ => none
  | f + 1, step, c :: cs =>
    (sliceLoop f step ((c :: cs).drop step)).map
      (fun ws => (c :: cs).take step :: ws)

/-- The body of the per-paragraph loop (lines 155-253), covering the
oversized-paragraph line/sentence/fixed-width paths, the small-paragraph
accumulation path and the trailing early-flush check. -/
def processParagraph (eff : Nat) (st : SplitState) (p : List Char) :
    Option SplitState :=
  let paragraphTokens := p.length / 4
  if eff < paragraphTokens then
    let st1 : SplitState :=
      if st.currentChunk ≠ [] then ⟨st.chunks ++ [st.currentChunk], [], 0⟩ else st
    let lines := splitOnSep '\n' [] p
    if 1 < lines.length then
      some (flushIfFull eff (lines.foldl (addLine eff) st1))
    else
      let sentences := buildSentences p
      if sentences.length ≤ 1 then
        (sliceLoop p.length (eff * 4) p).map
          (fun ws => flushIfFull eff ⟨st1.chunks ++ ws, st1.currentChunk, st1.currentTokens⟩)
      else
        some (flushIfFull eff (sentences.foldl (addSentence eff) st1))
  else
    some (flushIfFull eff (addParagraphSmall eff st p))

/-- The whole paragraph loop. -/
def processParagraphs (eff : Nat) : List (List Char) → SplitState → Option SplitState
  | [], st => some st
  | p :: ps, st =>
    match processParagraph eff st p with
    | none => none
    | some st1 => processParagraphs eff ps st1

/-- The splitting phase proper (lines 149-257), run with a given effective
budget: split into paragraphs, run the packing loop, flush the trailing
buffer. -/
def splitBody (eff : Nat) (text : List Char) : Option (List (List Char)) :=
  match processParagraphs eff (splitOnSep '\n' ['\n'] text) ⟨[], [], 0⟩ with
  | none => none
  | some st =>
    some (if st.currentChunk ≠ [] then st.chunks ++ [st.currentChunk] else st.chunks)

/-- `(*Translator).splitIntoChunks` (lines 127-267). -/
def splitIntoChunks (cfg : Config) (text : List Char) : Option (List (List Char)) :=
  if text = [] then some []
  else
    let estimatedTokens := text.length / 4
    if estimatedTokens ≤ cfg.chunkSize then some [text]
    else splitBody (effectiveChunkSize cfg.chunkSize) text

/-- `true` exactly on `Except.error`. -/
def isErrB {α β : Type} : Except α β → Bool
  | Except.error _ => true
  | Except.ok _ => false

/-- Lines 64-67 and 323-326: the attempt ceiling, defaulting to 3 when the
configured `MaxRetries` is ≤ 0. -/
def effectiveMaxRetries (maxRetries : Int) : Nat :=
  if maxRetries ≤ 0 then 3 else maxRetries.toNat

/-- The attempt loop shared by lines 70-85 (per-chunk) : run attempt
`idx`, stop on success or when no further attempt remains (`remaining` is
the number of attempts left after this one), and also report how many
times the operation was invoked. -/
def retryCore (op : Nat → Except (List Char) (List Char)) :
    Nat → Nat → Except (List Char) (List Char) × Nat
  | idx, 0 => (op idx, 1)
  | idx, r + 1 =>
    match op idx with
    | Except.ok a => (Except.ok a, 1)
    | Except.error _ =>
      let res := retryCore op (idx + 1) r
      (res.1, res.2 + 1)

/-- The per-chunk retry loop of `TranslateFile` (lines 62-90) around an
abstract translation operation, returning the loop's outcome and the
number of invocations. -/
def chunkRetry (cfg : Config) (op : Nat → Except (List Char) (List Char)) :
    Except (List Char) (List Char) × Nat :=
  retryCore op 0 (effectiveMaxRetries cfg.maxRetries - 1)

/-- The parsed success-shape response body (`OpenRouterResponse`): the
contents of `choices[i].message.content`, and `error.message` if present. -/
structure OpenRouterResponse where
  choices : List (List Char)
  error : Option (List Char)

/-- A response body, either failing `json.Unmarshal` or parsed. -/
inductive ResponseBody where
  | malformed (raw : List Char)
  | parsed (resp : OpenRouterResponse)

/-- The outcome of one transport attempt (`client.Do`): a network-level
error, or an HTTP response with a status code and a body. -/
inductive TransportResult where
  | netErr (msg : List Char)
  | httpResp (status : Nat) (body : ResponseBody)

/-- `true` on transport attempts that fail to reach the capability. -/
def TransportResult.isNet : TransportResult → Bool
  | TransportResult.netErr _ => true
  | TransportResult.httpResp _ _ => false

/-- The inner transport retry loop of `translateChunk` (lines 329-344):
retry while `client.Do` itself fails; stop at the first delivered HTTP
response, whatever its status.  Returns the last attempt's outcome and the
number of transport invocations. -/
def sendLoop (transport : Nat → TransportResult) :
    Nat → Nat → TransportResult × Nat
  | idx, 0 => (transport idx, 1)
  | idx, r + 1 =>
    match transport idx with
    | TransportResult.netErr _ =>
      let res := sendLoop transport (idx + 1) r
      (res.1, res.2 + 1)
    | TransportResult.httpResp status body => (TransportResult.httpResp status body, 1)

/-- `"<result>"`. -/
def resultOpenTag : List Char := strL "<result>"

/-- `"</result>"`. -/
def resultCloseTag : List Char := strL "</result>"

/-- The error message of lines 412-414. -/
def tagNotFoundMsg : List Char := strL "tag <result> not found"

/-- `(*Translator).extractResultTag` (lines 407-417).  The Go code matches
the regular expression `(?s)<result>(.*?)</result>`; its leftmost-first
lazy match takes the first occurrence of `"<result>"` and the first
occurrence of `"</result>"` after it (a later start can only match if a
closing tag follows it, and such a closing tag also follows the first
opening tag, so the leftmost viable start is the first opening tag). -/
def extractResultTag (input : List Char) : Except (List Char) (List Char) :=
  match findSplit resultOpenTag input with
  | none => Except.error tagNotFoundMsg
  | some (_, rest) =>
    match findSplit resultCloseTag rest with
    | none => Except.error tagNotFoundMsg
    | some (m, _) => Except.ok m

/-- Lines 345-404 of `translateChunk`: turn the final transport outcome
into the chunk's translation or an error.  A net error becomes the
"failed to send request" error; a non-200 status becomes an API error
without any further transport attempt; then unmarshalling, the embedded
`error` field, empty `choices` and the `<result>` extraction are checked
in the source's order. -/
def processResponse (tr : TransportResult) : Except (List Char) (List Char) :=
  match tr with
  | TransportResult.netErr m => Except.error (strL "failed to send request: " ++ m)
  | TransportResult.httpResp status body =>
    if status ≠ 200 then Except.error (strL "API request failed with status " ++ (toString status).data)
    else
      match body with
      | ResponseBody.malformed _ => Except.error (strL "failed to unmarshal response")
      | ResponseBody.parsed resp =>
        match resp.error with
        | some m => Except.error (strL "API error: " ++ m)
        | none =>
          match resp.choices with
          | [] => Except.error (strL "no translation returned from API")
          | content :: _ => extractResultTag content

/-- `(*Translator).translateChunk` (lines 290-405) over the abstract
transport: run the inner send loop, then process the outcome.  Also
reports how many transport invocations were made. -/
def translateChunk (cfg : Config) (transport : Nat → TransportResult) :
    Except (List Char) (List Char) × Nat :=
  let res := sendLoop transport 0 (effectiveMaxRetries cfg.maxRetries - 1)
  (processResponse res.1, res.2)

/-- Lines 102-117: the pacing delay in milliseconds slept after a chunk of
the given byte length when it is not the last chunk. -/
def pacingDelayMs (chunkLen : Nat) : Nat :=
  if 1000 < chunkLen then
    let additional := chunkLen / 1000 * 300
    10 + (if 1500 < additional then 1500 else additional)
  else 10

/-- The pacing delays of a whole `TranslateFile` run: the sleep happens
exactly when `i < len(chunks)-1`, i.e. after every chunk but the last. -/
def pacingSchedule (chunks : List (List Char)) : List Nat :=
  chunks.dropLast.map (fun c => pacingDelayMs c.length)

/-! ### Lemmas about the substring search primitive -/

/-- A successful `List.isPrefixOf` test decomposes the list. -/
theorem isPrefixOf_eq_append {pat s : List Char} (h : pat.isPrefixOf s = true) :
    s = pat ++ s.drop pat.length := by
  induction pat generalizing s with
  | nil => simp
  | cons c cs ih =>
    cases s with
    | nil => simp [List.isPrefixOf] at h
    | cons d ds =>
      rw [List.isPrefixOf, Bool.and_eq_true, beq_iff_eq] at h
      obtain ⟨rfl, h2⟩ := h
      simp only [List.cons_append, List.length_cons, List.drop_succ_cons]
      exact congrArg (List.cons c) (ih h2)

/-- `pat` is a prefix of `pat ++ b`. -/
theorem isPrefixOf_append_self (pat b : List Char) : pat.isPrefixOf (pat ++ b) = true := by
  induction pat with
  | nil => cases b <;> rfl
  | cons c cs ih => simp [List.isPrefixOf, ih]

/-- Unfolding `findSplit` at a position where the pattern matches. -/
theorem findSplit_eq_some_of_isPrefixOf {pat s : List Char} (h : pat.isPrefixOf s = true) :
    findSplit pat s = some ([], s.drop pat.length) := by
  cases s with
  | nil => rw [findSplit, if_pos h, List.drop_nil]
  | cons c cs => rw [findSplit, if_pos h]

/-- A successful `List.isPrefixOf` test recovers `pat` as a take. -/
theorem isPrefixOf_take {pat s : List Char} (h : pat.isPrefixOf s = true) :
    s.take pat.length = pat := by
  conv_lhs => rw [isPrefixOf_eq_append h]
  rw [List.take_left]

/-- `findSplit` really splits around an occurrence of the pattern. -/
theorem findSplit_sound {pat : List Char} :
    ∀ {s a b : List Char}, findSplit pat s = some (a, b) → s = a ++ pat ++ b := by
  intro s
  induction s with
  | nil =>
    intro a b h
    rw [findSplit] at h
    split at h
    · rename_i hp
      cases pat with
      | nil => simp_all
      | cons c cs => simp [List.isPrefixOf] at hp
    · exact absurd h (by simp)
  | cons c cs ih =>
    intro a b h
    rw [findSplit] at h
    split at h
    · rename_i hp
      obtain ⟨rfl, rfl⟩ : a = [] ∧ (c :: cs).drop pat.length = b := by
        simpa using h
      simpa using isPrefixOf_eq_append hp
    · rw [Option.map_eq_some'] at h
      obtain ⟨⟨a1, b1⟩, hfs, heq⟩ := h
      obtain ⟨rfl, rfl⟩ : c :: a1 = a ∧ b1 = b := by simpa using heq
      simp only [List.cons_append]
      exact congrArg (List.cons c) (ih hfs)

/-- If `findSplit` finds nothing, the pattern occurs nowhere. -/
theorem findSplit_none {pat : List Char} :
    ∀ {s : List Char}, findSplit pat s = none → ∀ x y, s ≠ x ++ pat ++ y := by
  intro s
  induction s with
  | nil =>
    intro h x y hxy
    rw [findSplit] at h
    split at h
    · exact absurd h (by simp)
    · rename_i hp
      have hx := hxy.symm
      simp only [List.append_eq_nil] at hx
      obtain ⟨⟨-, rfl⟩, -⟩ := hx
      exact hp rfl
  | cons c cs ih =>
    intro h x y hxy
    rw [findSplit] at h
    split at h
    · exact absurd h (by simp)
    · rename_i hp
      rw [Option.map_eq_none'] at h
      cases x with
      | nil =>
        apply hp
        simp only [List.nil_append] at hxy
        rw [hxy]
        exact isPrefixOf_append_self pat y
      | cons d ds =>
        simp only [List.cons_append, List.cons.injEq] at hxy
        exact ih h ds y hxy.2

/-- A pattern with no proper border: no nontrivial prefix of it equals the
same-length suffix.  Both result tags have this property. -/
def Borderless (pat : List Char) : Prop :=
  ∀ d, d < pat.length → 0 < d → pat.drop d ≠ pat.take (pat.length - d)

/-- For a borderless pattern that does not occur inside `a`, the leftmost
occurrence of the pattern in `a ++ pat ++ b` is the explicit one. -/
theorem findSplit_append {pat : List Char} (hb : Borderless pat) :
    ∀ {a : List Char}, (∀ x y, a ≠ x ++ pat ++ y) → ∀ (b : List Char),
      findSplit pat (a ++ pat ++ b) = some (a, b) := by
  intro a
  induction a with
  | nil =>
    intro _ b
    simp only [List.nil_append]
    rw [findSplit_eq_some_of_isPrefixOf (isPrefixOf_append_self pat b), List.drop_left]
  | cons x a1 ih =>
    intro ha b
    have hnp : ¬ pat.isPrefixOf ((x :: a1) ++ (pat ++ b)) = true := by
      intro hp
      have htake := isPrefixOf_take hp
      rw [List.take_append_eq_append_take] at htake
      rcases Nat.lt_or_ge (x :: a1).length pat.length with hlt | hge
      · -- the tested occurrence would straddle `a` and the explicit `pat`
        rw [List.take_of_length_le (Nat.le_of_lt hlt),
          List.take_append_of_le_length (Nat.sub_le _ _)] at htake
        have hd : pat.drop (x :: a1).length = pat.take (pat.length - (x :: a1).length) := by
          conv_lhs => rw [← htake]
          rw [List.drop_left]
        exact hb (x :: a1).length hlt (by simp) hd
      · -- the tested occurrence would lie inside `a`
        rw [Nat.sub_eq_zero_of_le hge, List.take_zero, List.append_nil] at htake
        apply ha [] ((x :: a1).drop pat.length)
        conv_lhs => rw [← List.take_append_drop pat.length (x :: a1)]
        rw [htake, List.nil_append]
    have ha1 : ∀ x1 y1, a1 ≠ x1 ++ pat ++ y1 := by
      intro x1 y1 hcontra
      exact ha (x :: x1) y1 (by simp [hcontra])
    have ih1 := ih ha1 b
    have hshape : (x :: a1) ++ pat ++ b = x :: (a1 ++ pat ++ b) := by simp
    rw [hshape, findSplit, if_neg (by simpa [List.append_assoc] using hnp), ih1]
    rfl

/-! ### Lemmas about `splitOnSep` -/

/-- The split of a string is never the empty list. -/
theorem splitOnAux_ne_nil (c : Char) (cs : List Char) (f : Nat) (s : List Char) :
    splitOnAux c cs f s ≠ [] := by
  cases f with
  | zero => simp [splitOnAux]
  | succ f =>
    rw [splitOnAux]
    cases h : findSplit (c :: cs) s with
    | none => simp
    | some pr => simp

/-- With fuel at least the string's length, joining the split with the
separator recovers the string (Go `strings.Split` loses nothing). -/
theorem joinSep_splitOnAux (c : Char) (cs : List Char) :
    ∀ (f : Nat) (s : List Char), s.length ≤ f →
      joinSep (c :: cs) (splitOnAux c cs f s) = s := by
  intro f
  induction f with
  | zero =>
    intro s hs
    obtain rfl : s = [] := List.eq_nil_of_length_eq_zero (Nat.le_zero.mp hs)
    rfl
  | succ f ih =>
    intro s hs
    rw [splitOnAux]
    cases hfs : findSplit (c :: cs) s with
    | none => rfl
    | some pr =>
      obtain ⟨a, rest⟩ := pr
      have hdecomp := findSplit_sound hfs
      have hlen : rest.length ≤ f := by
        have := congrArg List.length hdecomp
        simp only [List.length_append, List.length_cons] at this
        omega
      obtain ⟨r1, rs, hr⟩ : ∃ r1 rs, splitOnAux c cs f rest = r1 :: rs := by
        cases h : splitOnAux c cs f rest with
        | nil => exact absurd h (splitOnAux_ne_nil c cs f rest)
        | cons r1 rs => exact ⟨r1, rs, rfl⟩
      have hjoin : joinSep (c :: cs) (splitOnAux c cs f rest) = rest := ih rest hlen
      rw [hr] at hjoin
      show joinSep (c :: cs) (a :: splitOnAux c cs f rest) = s
      rw [hr, joinSep, hjoin]
      exact hdecomp.symm

/-- Joining `strings.Split(s, sep)` with `sep` recovers `s`. -/
theorem joinSep_splitOnSep (c : Char) (cs s : List Char) :
    joinSep (c :: cs) (splitOnSep c cs s) = s :=
  joinSep_splitOnAux c cs s.length s (Nat.le_refl _)

/-! ### Lemmas about `fields` (whitespace normalization) -/

/-- Crossing a whitespace character flushes the accumulated word: the
words of `a ++ ws ++ b` under accumulator `acc` are the words of `a` under
`acc` followed by the words of `b`. -/
theorem fieldsAux_ws_mid {cw : Char} (hws : isSpaceChar cw = true) :
    ∀ (a acc b : List Char),
      fieldsAux (a ++ cw :: b) acc = fieldsAux a acc ++ fieldsAux b [] := by
  intro a
  induction a with
  | nil =>
    intro acc b
    by_cases hacc : acc.isEmpty <;> simp [fieldsAux, hws, hacc]
  | cons x a1 ih =>
    intro acc b
    by_cases hx : isSpaceChar x
    · by_cases hacc : acc.isEmpty <;> simp [fieldsAux, hx, hacc, ih]
    · simp [fieldsAux, hx, ih]

/-- The words of `a ++ ws ++ b` are the words of `a` then the words of `b`. -/
theorem fields_append_ws {cw : Char} (hws : isSpaceChar cw = true) (a b : List Char) :
    fields (a ++ cw :: b) = fields a ++ fields b :=
  fieldsAux_ws_mid hws a [] b

/-- A leading whitespace character adds no word. -/
theorem fields_cons_ws {cw : Char} (hws : isSpaceChar cw = true) (b : List Char) :
    fields (cw :: b) = fields b := by
  simpa using fields_append_ws hws [] b

/-- A trailing whitespace character adds no word. -/
theorem fields_append_ws_nil {cw : Char} (hws : isSpaceChar cw = true) (a : List Char) :
    fields (a ++ [cw]) = fields a := by
  have := fieldsAux_ws_mid hws a [] []
  simpa [fieldsAux] using this

/-- `'\n'` is whitespace. -/
theorem isSpaceChar_nl : isSpaceChar '\n' = true := by decide

/-- The words of a `"\n\n"`-join are the concatenated words of the parts. -/
theorem fields_joinSep_newline2 :
    ∀ (ps : List (List Char)),
      fields (joinSep newline2 ps) = (ps.map fields).flatten := by
  intro ps
  induction ps with
  | nil => rfl
  | cons x r ih =>
    cases r with
    | nil => simp [joinSep]
    | cons y rest =>
      have hsh : joinSep newline2 (x :: y :: rest)
          = x ++ '\n' :: ('\n' :: joinSep newline2 (y :: rest)) := by
        rw [joinSep]
        simp [newline2]
      rw [hsh, fields_append_ws isSpaceChar_nl, fields_cons_ws isSpaceChar_nl, ih]
      simp

/-- A chunk that ends with a newline decomposes as `x1 ++ ['\n']`. -/
theorem endsWithNewline_decomp {x : List Char} (h : endsWithNewline x = true) :
    ∃ x1, x = x1 ++ ['\n'] := by
  rw [endsWithNewline, decide_eq_true_eq] at h
  exact List.getLast?_eq_some_iff.mp h

/-- If every chunk is non-empty, the words of the reconstruction are the
concatenated words of the chunks: the separator rule only ever inserts or
omits whitespace at a whitespace position. -/
theorem fields_reconstruct :
    ∀ (chunks : List (List Char)), (∀ ch ∈ chunks, ch ≠ []) →
      fields (reconstruct chunks) = (chunks.map fields).flatten := by
  intro chunks
  induction chunks with
  | nil => intro _; rfl
  | cons x r ih =>
    intro hne
    cases r with
    | nil => simp [reconstruct]
    | cons y rest =>
      have ihr := ih (fun ch hch => hne ch (by simp [hch]))
      rw [reconstruct]
      by_cases hend : endsWithNewline x = true
      · -- the earlier chunk ends with a newline: no separator inserted
        obtain ⟨x1, rfl⟩ := endsWithNewline_decomp hend
        rw [if_pos hend]
        simp only [List.append_nil, List.nil_append, List.append_assoc, List.singleton_append]
        rw [fields_append_ws isSpaceChar_nl, ihr]
        simp [fields_append_ws_nil isSpaceChar_nl]
      · -- separator `"\n\n"` inserted: still whitespace
        rw [if_neg hend]
        have hsh : x ++ newline2 ++ reconstruct (y :: rest)
            = x ++ '\n' :: ('\n' :: reconstruct (y :: rest)) := by
          simp [newline2]
        rw [hsh, fields_append_ws isSpaceChar_nl, fields_cons_ws isSpaceChar_nl, ihr]
        simp

/-! ### The paragraph-packing loop under the small-paragraph condition -/

/-- `fields` of the empty string. -/
theorem fields_nil : fields [] = [] := rfl

/-- One whole loop iteration on a paragraph that fits the effective
budget: accumulate, then apply the early-flush check. -/
def paraFold (eff : Nat) (st : SplitState) (p : List Char) : SplitState :=
  flushIfFull eff (addParagraphSmall eff st p)

/-- When every paragraph fits the effective budget, the paragraph loop
never enters the oversized path and reduces to a pure fold. -/
theorem processParagraphs_small (eff : Nat) :
    ∀ (ps : List (List Char)) (st : SplitState),
      (∀ p ∈ ps, p.length / 4 ≤ eff) →
      processParagraphs eff ps st = some (List.foldl (paraFold eff) st ps) := by
  intro ps
  induction ps with
  | nil => intro st _; rfl
  | cons p ps ih =>
    intro st hp
    have hple : p.length / 4 ≤ eff := hp p (by simp)
    have hstep : processParagraph eff st p = some (paraFold eff st p) := by
      rw [processParagraph, if_neg (Nat.not_lt.mpr hple)]
      rfl
    rw [processParagraphs, hstep]
    exact ih (paraFold eff st p) (fun q hq => hp q (by simp [hq]))

/-- One step of the paragraph-packing fold preserves the state invariant
(positive token estimate exactly when the buffer is non-empty, all flushed
chunks non-empty) and appends the paragraph's words to the state's words. -/
theorem paraFold_step (eff : Nat) (heff : 1 ≤ eff) (st : SplitState) (p : List Char)
    (hp : 4 ≤ p.length)
    (hiv : 0 < st.currentTokens ↔ st.currentChunk ≠ [])
    (hch : ∀ ch ∈ st.chunks, ch ≠ []) :
    (0 < (paraFold eff st p).currentTokens ↔ (paraFold eff st p).currentChunk ≠ []) ∧
    (∀ ch ∈ (paraFold eff st p).chunks, ch ≠ []) ∧
    ((paraFold eff st p).chunks.map fields).flatten ++ fields (paraFold eff st p).currentChunk
      = (st.chunks.map fields).flatten ++ fields st.currentChunk ++ fields p := by
  have hpt : 0 < p.length / 4 := by omega
  have hpne : p ≠ [] := by
    intro h
    subst h
    simp at hp
  have hjoin : fields (st.currentChunk ++ newline2 ++ p)
      = fields st.currentChunk ++ fields p := by
    have h0 : st.currentChunk ++ newline2 ++ p
        = st.currentChunk ++ '\n' :: ('\n' :: p) := by
      simp [newline2]
    rw [h0, fields_append_ws isSpaceChar_nl, fields_cons_ws isSpaceChar_nl]
  obtain ⟨hA1, hA2, hA3⟩ :
      (0 < (addParagraphSmall eff st p).currentTokens ↔
        (addParagraphSmall eff st p).currentChunk ≠ []) ∧
      (∀ ch ∈ (addParagraphSmall eff st p).chunks, ch ≠ []) ∧
      ((addParagraphSmall eff st p).chunks.map fields).flatten ++
          fields (addParagraphSmall eff st p).currentChunk
        = (st.chunks.map fields).flatten ++ fields st.currentChunk ++ fields p := by
    rw [addParagraphSmall]
    split_ifs with h1 h2
    · -- the buffer is flushed first, the paragraph starts the new buffer
      refine ⟨by simpa using ⟨fun _ => hpne, fun _ => hpt⟩, ?_, ?_⟩
      · intro ch hm
        rcases List.mem_append.mp hm with hml | hmr
        · exact hch ch hml
        · have hcur : ch = st.currentChunk := by simpa using hmr
          subst hcur
          exact hiv.mp h1.1
      · simp [List.flatten_append, List.append_assoc]
    · -- appended with the `"\n\n"` joiner
      refine ⟨?_, hch, ?_⟩
      · dsimp only
        constructor
        · intro _ hcontra
          simp only [List.append_eq_nil] at hcontra
          exact hpne hcontra.2
        · intro _
          omega
      · dsimp only
        rw [hjoin]
        exact (List.append_assoc _ _ _).symm
    · -- empty buffer: the paragraph is copied in with no joiner
      have hcur : st.currentChunk = [] := by
        by_contra hc
        exact h2 (hiv.mpr hc)
      have htok : st.currentTokens = 0 := by omega
      refine ⟨?_, hch, ?_⟩
      · dsimp only
        constructor
        · intro _
          simpa [hcur] using hpne
        · intro _
          omega
      · dsimp only
        simp [hcur, htok, fields_nil]
  rw [paraFold, flushIfFull]
  split_ifs with hf
  · -- early flush: the filled buffer becomes a chunk
    have hcne : (addParagraphSmall eff st p).currentChunk ≠ [] := hA1.mp (by omega)
    refine ⟨by simp, ?_, ?_⟩
    · intro ch hm
      rcases List.mem_append.mp hm with hml | hmr
      · exact hA2 ch hml
      · have hcur : ch = (addParagraphSmall eff st p).currentChunk := by simpa using hmr
        subst hcur
        exact hcne
    · simpa [List.flatten_append, fields_nil] using hA3
  · exact ⟨hA1, hA2, hA3⟩

/-- The paragraph-packing fold over any list of paragraphs of length at
least 4 preserves the invariant and accumulates exactly the paragraphs'
words. -/
theorem paraFold_loop (eff : Nat) (heff : 1 ≤ eff) :
    ∀ (ps : List (List Char)) (st : SplitState),
      (∀ p ∈ ps, 4 ≤ p.length) →
      (0 < st.currentTokens ↔ st.currentChunk ≠ []) →
      (∀ ch ∈ st.chunks, ch ≠ []) →
      (0 < (List.foldl (paraFold eff) st ps).currentTokens ↔
        (List.foldl (paraFold eff) st ps).currentChunk ≠ []) ∧
      (∀ ch ∈ (List.foldl (paraFold eff) st ps).chunks, ch ≠ []) ∧
      ((List.foldl (paraFold eff) st ps).chunks.map fields).flatten ++
          fields (List.foldl (paraFold eff) st ps).currentChunk
        = (st.chunks.map fields).flatten ++ fields st.currentChunk ++
            (ps.map fields).flatten := by
  intro ps
  induction ps with
  | nil =>
    intro st _ hiv hch
    exact ⟨hiv, hch, by simp⟩
  | cons p ps ih =>
    intro st hp hiv hch
    obtain ⟨h1, h2, h3⟩ := paraFold_step eff heff st p (hp p (by simp)) hiv hch
    obtain ⟨g1, g2, g3⟩ := ih (paraFold eff st p) (fun q hq => hp q (by simp [hq])) h1 h2
    rw [List.foldl_cons]
    refine ⟨g1, g2, ?_⟩
    rw [g3, h3]
    simp [List.append_assoc]

/-- A positive chunk budget gives a positive effective budget. -/
theorem one_le_effectiveChunkSize {cs : Nat} (h : 1 ≤ cs) :
    1 ≤ effectiveChunkSize cs := by
  rw [effectiveChunkSize]
  split_ifs <;> omega

/-! ### Termination and chunk non-emptiness of the full splitter -/

/-- With positive step and fuel at least the string's length, the
fixed-width slicing loop finishes. -/
theorem sliceLoop_some {step : Nat} (hstep : 1 ≤ step) :
    ∀ (f : Nat) (l : List Char), l.length ≤ f →
      ∃ ws, sliceLoop f step l = some ws := by
  intro f
  induction f with
  | zero =>
    intro l hl
    obtain rfl : l = [] := List.eq_nil_of_length_eq_zero (Nat.le_zero.mp hl)
    exact ⟨[], rfl⟩
  | succ f ih =>
    intro l hl
    cases l with
    | nil => exact ⟨[], rfl⟩
    | cons c cs =>
      have hdrop : ((c :: cs).drop step).length ≤ f := by
        simp only [List.length_drop, List.length_cons] at *
        omega
      obtain ⟨ws, hws⟩ := ih _ hdrop
      refine ⟨(c :: cs).take step :: ws, ?_⟩
      rw [sliceLoop, hws]
      rfl

/-- With positive step, every fixed-width window is non-empty. -/
theorem sliceLoop_nonempty {step : Nat} (hstep : 1 ≤ step) :
    ∀ (f : Nat) (l : List Char) (ws : List (List Char)),
      sliceLoop f step l = some ws → ∀ w ∈ ws, w ≠ [] := by
  intro f
  induction f with
  | zero =>
    intro l ws h w hw
    cases l with
    | nil =>
      obtain rfl : ([] : List (List Char)) = ws := by simpa [sliceLoop] using h
      simp at hw
    | cons c cs => simp [sliceLoop] at h
  | succ f ih =>
    intro l ws h w hw
    cases l with
    | nil =>
      obtain rfl : ([] : List (List Char)) = ws := by simpa [sliceLoop] using h
      simp at hw
    | cons c cs =>
      rw [sliceLoop, Option.map_eq_some'] at h
      obtain ⟨ws1, hws1, rfl⟩ := h
      rcases List.mem_cons.mp hw with rfl | hmem
      · cases step with
        | zero => omega
        | succ k => simp
      · exact ih _ _ hws1 w hmem

/-- The invariant of the chunking state: a positive running estimate means
a non-empty buffer, and every flushed chunk is non-empty. -/
def StateInv (st : SplitState) : Prop :=
  (0 < st.currentTokens → st.currentChunk ≠ []) ∧ (∀ ch ∈ st.chunks, ch ≠ [])

theorem stateInv_init : StateInv ⟨[], [], 0⟩ := ⟨by simp, by simp⟩

theorem addLine_inv {eff : Nat} {st : SplitState} (hst : StateInv st) (line : List Char) :
    StateInv (addLine eff st line) := by
  obtain ⟨h1, h2⟩ := hst
  rw [addLine]
  split_ifs with hc1 hc2
  · refine ⟨?_, ?_⟩
    · intro hpos
      dsimp only at hpos ⊢
      intro hline
      subst hline
      simp at hpos
    · intro ch hm
      rcases List.mem_append.mp hm with hml | hmr
      · exact h2 ch hml
      · have : ch = st.currentChunk := by simpa using hmr
        subst this
        exact h1 hc1.1
  · refine ⟨?_, h2⟩
    intro _
    dsimp only
    intro hcontra
    simp only [List.append_eq_nil] at hcontra
    exact h1 hc2 hcontra.1.1
  · refine ⟨?_, h2⟩
    intro hpos
    dsimp only at hpos ⊢
    intro hcontra
    simp only [List.append_eq_nil] at hcontra
    obtain ⟨hcur, hline⟩ := hcontra
    have htok : st.currentTokens = 0 := by omega
    rw [htok, hline] at hpos
    simp at hpos

theorem addSentence_inv {eff : Nat} {st : SplitState} (hst : StateInv st) (s : List Char) :
    StateInv (addSentence eff st s) := by
  obtain ⟨h1, h2⟩ := hst
  rw [addSentence]
  split_ifs with hc1
  · refine ⟨?_, ?_⟩
    · intro hpos
      dsimp only at hpos ⊢
      intro hs
      subst hs
      simp at hpos
    · intro ch hm
      rcases List.mem_append.mp hm with hml | hmr
      · exact h2 ch hml
      · have : ch = st.currentChunk := by simpa using hmr
        subst this
        exact h1 hc1.1
  · refine ⟨?_, h2⟩
    intro hpos
    dsimp only at hpos ⊢
    intro hcontra
    simp only [List.append_eq_nil] at hcontra
    obtain ⟨hcur, hs⟩ := hcontra
    rw [hs] at hpos
    simp only [List.length_nil] at hpos
    exact h1 (by omega) hcur

theorem addParagraphSmall_inv {eff : Nat} {st : SplitState} (hst : StateInv st)
    (p : List Char) : StateInv (addParagraphSmall eff st p) := by
  obtain ⟨h1, h2⟩ := hst
  rw [addParagraphSmall]
  split_ifs with hc1 hc2
  · refine ⟨?_, ?_⟩
    · intro hpos
      dsimp only at hpos ⊢
      intro hp
      subst hp
      simp at hpos
    · intro ch hm
      rcases List.mem_append.mp hm with hml | hmr
      · exact h2 ch hml
      · have : ch = st.currentChunk := by simpa using hmr
        subst this
        exact h1 hc1.1
  · refine ⟨?_, h2⟩
    intro _
    dsimp only
    intro hcontra
    simp only [List.append_eq_nil] at hcontra
    exact h1 hc2 hcontra.1.1
  · refine ⟨?_, h2⟩
    intro hpos
    dsimp only at hpos ⊢
    intro hcontra
    simp only [List.append_eq_nil] at hcontra
    obtain ⟨hcur, hp⟩ := hcontra
    have htok : st.currentTokens = 0 := by omega
    rw [htok, hp] at hpos
    simp at hpos

theorem flushIfFull_inv {eff : Nat} (heff : 1 ≤ eff) {st : SplitState}
    (hst : StateInv st) : StateInv (flushIfFull eff st) := by
  obtain ⟨h1, h2⟩ := hst
  rw [flushIfFull]
  split_ifs with hc
  · refine ⟨by simp, ?_⟩
    intro ch hm
    rcases List.mem_append.mp hm with hml | hmr
    · exact h2 ch hml
    · have : ch = st.currentChunk := by simpa using hmr
      subst this
      exact h1 (by omega)
  · exact ⟨h1, h2⟩

theorem foldl_addLine_inv {eff : Nat} (lines : List (List Char)) :
    ∀ {st : SplitState}, StateInv st → StateInv (lines.foldl (addLine eff) st) := by
  induction lines with
  | nil => intro st hst; exact hst
  | cons l ls ih => intro st hst; exact ih (addLine_inv hst l)

theorem foldl_addSentence_inv {eff : Nat} (ss : List (List Char)) :
    ∀ {st : SplitState}, StateInv st → StateInv (ss.foldl (addSentence eff) st) := by
  induction ss with
  | nil => intro st hst; exact hst
  | cons s ss ih => intro st hst; exact ih (addSentence_inv hst s)

/-- The entry flush of the oversized-paragraph path preserves the invariant. -/
theorem entryFlush_inv {st : SplitState} (hst : StateInv st) :
    StateInv (if st.currentChunk ≠ [] then
      SplitState.mk (st.chunks ++ [st.currentChunk]) [] 0 else st) := by
  obtain ⟨h1, h2⟩ := hst
  split_ifs with hc
  · refine ⟨by simp, ?_⟩
    intro ch hm
    rcases List.mem_append.mp hm with hml | hmr
    · exact h2 ch hml
    · have : ch = st.currentChunk := by simpa using hmr
      subst this
      exact hc
  · exact ⟨h1, h2⟩

/-- Each paragraph step succeeds (with the fuel provided in the
definition) and preserves the invariant, for any positive effective
budget. -/
theorem processParagraph_ok {eff : Nat} (heff : 1 ≤ eff) (st : SplitState)
    (hst : StateInv st) (p : List Char) :
    ∃ st1, processParagraph eff st p = some st1 ∧ StateInv st1 := by
  rw [processParagraph]
  by_cases hbig : eff < p.length / 4
  · rw [if_pos hbig]
    have hst1 := entryFlush_inv hst
    by_cases hlines : 1 < (splitOnSep '\n' [] p).length
    · rw [if_pos hlines]
      exact ⟨_, rfl, flushIfFull_inv heff (foldl_addLine_inv _ hst1)⟩
    · rw [if_neg hlines]
      by_cases hsent : (buildSentences p).length ≤ 1
      · rw [if_pos hsent]
        have hstep : 1 ≤ eff * 4 := by omega
        obtain ⟨ws, hws⟩ := sliceLoop_some hstep p.length p (Nat.le_refl _)
        rw [hws]
        refine ⟨_, rfl, ?_⟩
        apply flushIfFull_inv heff
        obtain ⟨h1, h2⟩ := hst1
        refine ⟨h1, ?_⟩
        intro ch hm
        rcases List.mem_append.mp hm with hml | hmr
        · exact h2 ch hml
        · exact sliceLoop_nonempty hstep p.length p ws hws ch hmr
      · rw [if_neg hsent]
        exact ⟨_, rfl, flushIfFull_inv heff (foldl_addSentence_inv _ hst1)⟩
  · rw [if_neg hbig]
    exact ⟨_, rfl, flushIfFull_inv heff (addParagraphSmall_inv hst p)⟩

/-- The whole paragraph loop succeeds and preserves the invariant. -/
theorem processParagraphs_ok {eff : Nat} (heff : 1 ≤ eff) :
    ∀ (ps : List (List Char)) (st : SplitState), StateInv st →
      ∃ st1, processParagraphs eff ps st = some st1 ∧ StateInv st1 := by
  intro ps
  induction ps with
  | nil => intro st hst; exact ⟨st, rfl, hst⟩
  | cons p ps ih =>
    intro st hst
    obtain ⟨st1, hs1, hinv1⟩ := processParagraph_ok heff st hst p
    obtain ⟨st2, hs2, hinv2⟩ := ih st1 hinv1
    refine ⟨st2, ?_, hinv2⟩
    rw [processParagraphs, hs1]
    exact hs2

/-- `splitBody` always succeeds for a positive effective budget, with all
its chunks non-empty. -/
theorem splitBody_ok {eff : Nat} (heff : 1 ≤ eff) (text : List Char) :
    ∃ chunks, splitBody eff text = some chunks ∧ ∀ ch ∈ chunks, ch ≠ [] := by
  obtain ⟨st1, hs1, hinv1⟩ :=
    processParagraphs_ok heff (splitOnSep '\n' ['\n'] text) ⟨[], [], 0⟩ stateInv_init
  refine ⟨if st1.currentChunk ≠ [] then st1.chunks ++ [st1.currentChunk] else st1.chunks,
    ?_, ?_⟩
  · rw [splitBody, hs1]
  · split_ifs with hc
    · intro ch hm
      rcases List.mem_append.mp hm with hml | hmr
      · exact hinv1.2 ch hml
      · have : ch = st1.currentChunk := by simpa using hmr
        subst this
        exact hc
    · exact hinv1.2

/-! ### The claims -/

/-- C1 (amended): the lossless-reconstruction invariant holds for every
input whose blank-line-separated paragraphs each are at least 4 bytes long
(at least one estimated token) and each fit within the effective budget,
so that only the paragraph-packing path runs: joining the returned chunks
with the `"\n\n"`-separator rule and whitespace-normalizing reproduces the
whitespace-normalized input.  (As originally stated — for every input —
the claim fails: see the counterexample, where two paragraphs whose
estimates truncate to zero tokens are concatenated without any joiner.) -/
theorem splitIntoChunks_reconstruction (cfg : Config) (text : List Char)
    (hcs : 1 ≤ cfg.chunkSize)
    (hp : ∀ p ∈ splitOnSep '\n' ['\n'] text,
      4 ≤ p.length ∧ p.length / 4 ≤ effectiveChunkSize cfg.chunkSize) :
    ∃ chunks, splitIntoChunks cfg text = some chunks ∧
      normalizeText (reconstruct chunks) = normalizeText text := by
  have htne : text ≠ [] := by
    intro h
    subst h
    have hmem : ([] : List Char) ∈ splitOnSep '\n' ['\n'] [] := by
      simp [splitOnSep, splitOnAux]
    have := (hp [] hmem).1
    simp at this
  rw [splitIntoChunks, if_neg htne]
  by_cases hle : text.length / 4 ≤ cfg.chunkSize
  · rw [if_pos hle]
    exact ⟨[text], rfl, rfl⟩
  · rw [if_neg hle]
    have heff := one_le_effectiveChunkSize hcs
    have hred := processParagraphs_small (effectiveChunkSize cfg.chunkSize)
      (splitOnSep '\n' ['\n'] text) ⟨[], [], 0⟩ (fun p h => (hp p h).2)
    obtain ⟨hiv, hch, hw⟩ := paraFold_loop (effectiveChunkSize cfg.chunkSize) heff
      (splitOnSep '\n' ['\n'] text) ⟨[], [], 0⟩ (fun p h => (hp p h).1)
      (by simp) (by simp)
    set stF := List.foldl (paraFold (effectiveChunkSize cfg.chunkSize)) ⟨[], [], 0⟩
      (splitOnSep '\n' ['\n'] text) with hstF
    have hbody : splitBody (effectiveChunkSize cfg.chunkSize) text
        = some (if stF.currentChunk ≠ [] then stF.chunks ++ [stF.currentChunk]
            else stF.chunks) := by
      rw [splitBody, hred]
    refine ⟨_, hbody, ?_⟩
    have htext : joinSep newline2 (splitOnSep '\n' ['\n'] text) = text :=
      joinSep_splitOnSep '\n' ['\n'] text
    have hfields_text :
        fields text = ((splitOnSep '\n' ['\n'] text).map fields).flatten := by
      conv_lhs => rw [← htext]
      rw [fields_joinSep_newline2]
    have hfinne : ∀ ch ∈ (if stF.currentChunk ≠ [] then
        stF.chunks ++ [stF.currentChunk] else stF.chunks), ch ≠ [] := by
      split_ifs with hc
      · intro ch hm
        rcases List.mem_append.mp hm with h1 | h2
        · exact hch ch h1
        · have : ch = stF.currentChunk := by simpa using h2
          subst this
          exact hc
      · exact hch
    have hwords : (((if stF.currentChunk ≠ [] then
          stF.chunks ++ [stF.currentChunk] else stF.chunks).map fields).flatten)
        = ((splitOnSep '\n' ['\n'] text).map fields).flatten := by
      split_ifs with hc
      · simpa [List.flatten_append, fields_nil] using hw
      · have hcur : stF.currentChunk = [] := by
          by_contra hcc
          exact hc hcc
        simpa [hcur, fields_nil] using hw
    rw [normalizeText, normalizeText, fields_reconstruct _ hfinne, hwords, hfields_text]

/-- C1 witness: a two-paragraph input at budget 1, where each paragraph
has one estimated token, splits and reconstructs faithfully. -/
theorem splitIntoChunks_reconstruction_witness :
    ∃ chunks,
      splitIntoChunks ⟨[], [], 1, [], false, 3⟩ (strL "abcd\n\nefgh") = some chunks ∧
      normalizeText (reconstruct chunks)
        = normalizeText (strL "abcd\n\nefgh") :=
  splitIntoChunks_reconstruction ⟨[], [], 1, [], false, 3⟩ (strL "abcd\n\nefgh")
    (by decide) (by decide)

/-- C1 counterexample: at budget 1 the input `"abc\n\ndef"` (two
paragraphs of three bytes, zero estimated tokens each) is split into the
single chunk `"abcdef"` — the `"\n\n"` joiner is skipped because the
running token count is still zero — so the normalized reconstruction
`"abcdef"` differs from the normalized input `"abc def"`.  The invariant
does not hold for every possible input. -/
theorem splitIntoChunks_reconstruction_cex :
    splitIntoChunks ⟨[], [], 1, [], false, 3⟩ (strL "abc\n\ndef")
        = some [strL "abcdef"] ∧
      normalizeText (reconstruct [strL "abcdef"])
        ≠ normalizeText (strL "abc\n\ndef") := by
  decide

/-- C2: a non-empty input whose estimated token count `len/4` is at most
the configured budget is returned as a single chunk equal to the input,
even when it contains several paragraphs. -/
theorem splitIntoChunks_single_chunk (cfg : Config) (text : List Char)
    (hne : text ≠ []) (hle : text.length / 4 ≤ cfg.chunkSize) :
    splitIntoChunks cfg text = some [text] := by
  rw [splitIntoChunks, if_neg hne, if_pos hle]

/-- C2 witness: a four-paragraph input under budget 50 is one chunk. -/
theorem splitIntoChunks_single_chunk_witness :
    splitIntoChunks ⟨[], [], 50, [], false, 3⟩
        (strL "Paragraph 1.\n\nParagraph 2.\n\nParagraph 3.\n\nParagraph 4.")
      = some [strL "Paragraph 1.\n\nParagraph 2.\n\nParagraph 3.\n\nParagraph 4."] :=
  splitIntoChunks_single_chunk ⟨[], [], 50, [], false, 3⟩
    (strL "Paragraph 1.\n\nParagraph 2.\n\nParagraph 3.\n\nParagraph 4.")
    (by decide) (by decide)

/-- C3: for every finite input and every positive budget the splitter
terminates: the fuelled embedding (whose `none` models divergence of the
Go fixed-width loop, and whose fuel bounds the number of loop steps by
the paragraph's length) always returns `some`. -/
theorem splitIntoChunks_terminates (cfg : Config) (text : List Char)
    (hcs : 1 ≤ cfg.chunkSize) :
    ∃ chunks, splitIntoChunks cfg text = some chunks := by
  rw [splitIntoChunks]
  by_cases h0 : text = []
  · rw [if_pos h0]
    exact ⟨[], rfl⟩
  · rw [if_neg h0]
    by_cases hle : text.length / 4 ≤ cfg.chunkSize
    · rw [if_pos hle]
      exact ⟨[text], rfl⟩
    · rw [if_neg hle]
      obtain ⟨chunks, hchunks, -⟩ :=
        splitBody_ok (one_le_effectiveChunkSize hcs) text
      exact ⟨chunks, hchunks⟩

/-- C3 witness: termination on an input with no paragraph, line or
sentence boundary at all (thirty `a`s, budget 1), where only the
fixed-width loop can make progress. -/
theorem splitIntoChunks_terminates_witness :
    ∃ chunks,
      splitIntoChunks ⟨[], [], 1, [], false, 3⟩
        (strL "aaaaaaaaaaaaaaaaaaaaaaaaaaaaaa") = some chunks :=
  splitIntoChunks_terminates ⟨[], [], 1, [], false, 3⟩
    (strL "aaaaaaaaaaaaaaaaaaaaaaaaaaaaaa") (by decide)

/-- C7: whenever splitting is attempted (the estimate exceeds the
budget), the packing phase runs with effective budget
`⌊chunkSize × 0.8⌋`, except that when that product is below 100 tokens
the raw `chunkSize` is used instead. -/
theorem effective_budget_used (cfg : Config) (text : List Char)
    (hne : text ≠ []) (hover : cfg.chunkSize < text.length / 4) :
    splitIntoChunks cfg text
      = splitBody (if cfg.chunkSize * 4 / 5 < 100 then cfg.chunkSize
          else cfg.chunkSize * 4 / 5) text := by
  rw [splitIntoChunks, if_neg hne, if_neg (Nat.not_le.mpr hover)]
  rfl

/-- C7 witness: at budget 1 (product 0 below the 100-token floor) the
splitter packs with the raw budget 1. -/
theorem effective_budget_used_witness :
    splitIntoChunks ⟨[], [], 1, [], false, 3⟩ (strL "aaaaaaaa")
      = splitBody (if 1 * 4 / 5 < 100 then 1 else 1 * 4 / 5) (strL "aaaaaaaa") :=
  effective_budget_used ⟨[], [], 1, [], false, 3⟩ (strL "aaaaaaaa")
    (by decide) (by decide)

/-- C9: for every input and every positive budget, every returned chunk
is a non-empty string, on all of the paragraph, line, sentence and
fixed-width paths. -/
theorem splitIntoChunks_chunks_nonempty (cfg : Config) (text : List Char)
    (chunks : List (List Char)) (hcs : 1 ≤ cfg.chunkSize)
    (hres : splitIntoChunks cfg text = some chunks) :
    ∀ ch ∈ chunks, ch ≠ [] := by
  rw [splitIntoChunks] at hres
  by_cases h0 : text = []
  · rw [if_pos h0] at hres
    obtain rfl : [] = chunks := by simpa using hres
    simp
  · rw [if_neg h0] at hres
    by_cases hle : text.length / 4 ≤ cfg.chunkSize
    · rw [if_pos hle] at hres
      obtain rfl : [text] = chunks := by simpa using hres
      simpa using h0
    · rw [if_neg hle] at hres
      obtain ⟨chunks1, hchunks1, hne1⟩ :=
        splitBody_ok (one_le_effectiveChunkSize hcs) text
      rw [hchunks1] at hres
      obtain rfl : chunks1 = chunks := by simpa using hres
      exact hne1

/-- C9 witness: the last fixed-width slice of a boundary-free input at
budget 1 (the short trailing window `"aa"`) is non-empty. -/
theorem splitIntoChunks_chunks_nonempty_witness : strL "aa" ≠ [] :=
  splitIntoChunks_chunks_nonempty ⟨[], [], 1, [], false, 3⟩
    (strL "aaaaaaaaaaaaaaaaaaaaaaaaaaaaaa")
    [strL "aaaa", strL "aaaa", strL "aaaa", strL "aaaa", strL "aaaa",
      strL "aaaa", strL "aaaa", strL "aa"]
    (by decide) (by decide) (strL "aa") (by decide)

/-! ### The retry loops -/

/-- The attempt ceiling is always at least one. -/
theorem one_le_effectiveMaxRetries (m : Int) : 1 ≤ effectiveMaxRetries m := by
  rw [effectiveMaxRetries]
  split_ifs with h <;> omega

/-- If attempts `idx .. idx + r` all fail, the loop runs them all and
returns the last outcome. -/
theorem retryCore_all_fail (op : Nat → Except (List Char) (List Char)) :
    ∀ (r idx : Nat), (∀ i, idx ≤ i → i ≤ idx + r → isErrB (op i) = true) →
      retryCore op idx r = (op (idx + r), r + 1) := by
  intro r
  induction r with
  | zero => intro idx _; rfl
  | succ r ih =>
    intro idx h
    rw [retryCore]
    cases hop : op idx with
    | ok a =>
      have := h idx (Nat.le_refl _) (by omega)
      rw [hop] at this
      simp [isErrB] at this
    | error e =>
      have hrec := ih (idx + 1) (fun i h1 h2 => h i (by omega) (by omega))
      rw [hrec]
      have : idx + 1 + r = idx + (r + 1) := by omega
      rw [this]

/-- If attempts before `idx + k` fail and attempt `idx + k` succeeds, the
loop stops there with the success after exactly `k + 1` invocations. -/
theorem retryCore_first_ok (op : Nat → Except (List Char) (List Char)) :
    ∀ (k r idx : Nat) (a : List Char), k ≤ r →
      (∀ i, idx ≤ i → i < idx + k → isErrB (op i) = true) →
      op (idx + k) = Except.ok a →
      retryCore op idx r = (Except.ok a, k + 1) := by
  intro k
  induction k with
  | zero =>
    intro r idx a _ _ hok
    rw [Nat.add_zero] at hok
    cases r with
    | zero => rw [retryCore, hok]
    | succ r => rw [retryCore, hok]
  | succ k ih =>
    intro r idx a hkr hpre hok
    obtain ⟨r1, rfl⟩ : ∃ r1, r = r1 + 1 := ⟨r - 1, by omega⟩
    rw [retryCore]
    cases hop : op idx with
    | ok b =>
      have := hpre idx (Nat.le_refl _) (by omega)
      rw [hop] at this
      simp [isErrB] at this
    | error e =>
      have hrec := ih r1 (idx + 1) a (by omega)
        (fun i h1 h2 => hpre i (by omega) (by omega))
        (by rw [show idx + 1 + k = idx + (k + 1) from by omega]; exact hok)
      rw [hrec]

/-- C4: the per-chunk retry loop of `TranslateFile`: the attempt ceiling
defaults to 3 when the configured `MaxRetries` is ≤ 0; when every attempt
fails, the operation is invoked exactly the ceiling's number of times and
the outcome of the last attempt is what the loop returns; when an attempt
succeeds, the loop returns that success immediately, after exactly the
attempts up to and including it. -/
theorem translateFile_retry (cfg : Config) (op : Nat → Except (List Char) (List Char)) :
    (cfg.maxRetries ≤ 0 → effectiveMaxRetries cfg.maxRetries = 3)
    ∧ ((∀ i, i < effectiveMaxRetries cfg.maxRetries → isErrB (op i) = true) →
        chunkRetry cfg op = (op (effectiveMaxRetries cfg.maxRetries - 1),
          effectiveMaxRetries cfg.maxRetries))
    ∧ (∀ k a, k < effectiveMaxRetries cfg.maxRetries →
        (∀ i, i < k → isErrB (op i) = true) → op k = Except.ok a →
        chunkRetry cfg op = (Except.ok a, k + 1)) := by
  have hone := one_le_effectiveMaxRetries cfg.maxRetries
  refine ⟨?_, ?_, ?_⟩
  · intro h
    rw [effectiveMaxRetries, if_pos h]
  · intro h
    rw [chunkRetry, retryCore_all_fail op _ 0 (fun i h1 h2 => h i (by omega))]
    have : 0 + (effectiveMaxRetries cfg.maxRetries - 1)
        = effectiveMaxRetries cfg.maxRetries - 1 := by omega
    rw [this]
    have : effectiveMaxRetries cfg.maxRetries - 1 + 1
        = effectiveMaxRetries cfg.maxRetries := by omega
    rw [this]
  · intro k a hk hpre hok
    rw [chunkRetry]
    exact retryCore_first_ok op k _ 0 a (by omega)
      (fun i h1 h2 => hpre i (by omega)) (by simpa using hok)

/-- C4 witness: with `MaxRetries = 0` (defaulting to 3) and an operation
that always fails, the loop invokes it exactly 3 times and returns the
last error. -/
theorem translateFile_retry_witness :
    chunkRetry ⟨[], [], 500, [], false, 0⟩ (fun _ => Except.error (strL "boom"))
      = (Except.error (strL "boom"), 3) := by
  have h := (translateFile_retry ⟨[], [], 500, [], false, 0⟩
    (fun _ => Except.error (strL "boom"))).2.1 (fun i _ => rfl)
  rw [h]
  rfl

/-- The inner transport loop stops at the first delivered HTTP response,
whatever its status, after retrying exactly the failed send attempts
before it. -/
theorem sendLoop_first_response (transport : Nat → TransportResult) :
    ∀ (k r idx status : Nat) (body : ResponseBody), k ≤ r →
      (∀ i, idx ≤ i → i < idx + k → (transport i).isNet = true) →
      transport (idx + k) = TransportResult.httpResp status body →
      sendLoop transport idx r = (TransportResult.httpResp status body, k + 1) := by
  intro k
  induction k with
  | zero =>
    intro r idx status body _ _ hit
    rw [Nat.add_zero] at hit
    cases r with
    | zero => rw [sendLoop, hit]
    | succ r => rw [sendLoop, hit]
  | succ k ih =>
    intro r idx status body hkr hpre hit
    obtain ⟨r1, rfl⟩ : ∃ r1, r = r1 + 1 := ⟨r - 1, by omega⟩
    rw [sendLoop]
    cases hop : transport idx with
    | httpResp s1 b1 =>
      have := hpre idx (Nat.le_refl _) (by omega)
      rw [hop] at this
      simp [TransportResult.isNet] at this
    | netErr e =>
      have hrec := ih r1 (idx + 1) status body (by omega)
        (fun i h1 h2 => hpre i (by omega) (by omega))
        (by rw [show idx + 1 + k = idx + (k + 1) from by omega]; exact hit)
      rw [hrec]

/-- C5 (amended): only failures to reach the capability are retried by
the inner transport loop of `translateChunk`.  The first delivered HTTP
response — whatever its status — leaves the loop after exactly the send
attempts up to it, and a non-success status then produces an error that
surfaces to the caller (the outer per-chunk retry loop), with no further
transport invocation at the inner layer. -/
theorem inner_retry_status_amended (cfg : Config) (transport : Nat → TransportResult)
    (k status : Nat) (body : ResponseBody)
    (hk : k < effectiveMaxRetries cfg.maxRetries)
    (hpre : ∀ i, i < k → (transport i).isNet = true)
    (hit : transport k = TransportResult.httpResp status body) :
    (translateChunk cfg transport).2 = k + 1
    ∧ (status ≠ 200 → ∃ e, (translateChunk cfg transport).1 = Except.error e) := by
  have hsend := sendLoop_first_response transport k
    (effectiveMaxRetries cfg.maxRetries - 1) 0 status body (by omega)
    (fun i h1 h2 => hpre i (by omega)) (by simpa using hit)
  rw [translateChunk, hsend]
  refine ⟨rfl, ?_⟩
  intro hstatus
  refine ⟨strL "API request failed with status " ++ (toString status).data, ?_⟩
  show processResponse (TransportResult.httpResp status body) = _
  simp only [processResponse]
  rw [if_pos hstatus]

/-- C5 witness: a network error on the first attempt is retried by the
inner loop, and the 500-status response then delivered on the second
attempt stops the loop (two transport invocations) and surfaces as an
error. -/
theorem inner_retry_status_amended_witness :
    (translateChunk ⟨[], [], 500, [], false, 3⟩
        (fun i => if i = 0 then TransportResult.netErr (strL "down")
          else TransportResult.httpResp 500 (ResponseBody.malformed []))).2 = 1 + 1
    ∧ (500 ≠ 200 → ∃ e,
        (translateChunk ⟨[], [], 500, [], false, 3⟩
          (fun i => if i = 0 then TransportResult.netErr (strL "down")
            else TransportResult.httpResp 500 (ResponseBody.malformed []))).1
          = Except.error e) :=
  inner_retry_status_amended ⟨[], [], 500, [], false, 3⟩
    (fun i => if i = 0 then TransportResult.netErr (strL "down")
      else TransportResult.httpResp 500 (ResponseBody.malformed []))
    1 500 (ResponseBody.malformed []) (by decide) (by decide) (by rfl)

/-- C5 counterexample: with `maxAttempts = 3` and a transport that always
delivers a 500-status response, the inner loop invokes the transport
exactly once and `translateChunk` returns an error — whereas the same
loop invokes an always-unreachable transport 3 times.  A non-success
status is therefore not retried at the inner (transport-level) layer; it
surfaces to the outer per-chunk loop. -/
theorem inner_retry_status_cex :
    (translateChunk ⟨[], [], 500, [], false, 3⟩
        (fun _ => TransportResult.httpResp 500 (ResponseBody.malformed []))).2 = 1
    ∧ isErrB (translateChunk ⟨[], [], 500, [], false, 3⟩
        (fun _ => TransportResult.httpResp 500 (ResponseBody.malformed []))).1 = true
    ∧ (translateChunk ⟨[], [], 500, [], false, 3⟩
        (fun _ => TransportResult.netErr (strL "unreachable"))).2 = 3 := by
  decide

/-! ### Result-tag extraction -/

/-- `"<result>"` has no proper border. -/
theorem resultOpenTag_borderless : Borderless resultOpenTag := by
  unfold Borderless
  decide

/-- `"</result>"` has no proper border. -/
theorem resultCloseTag_borderless : Borderless resultCloseTag := by
  unfold Borderless
  decide

/-- On a delivered 200-status response that parses with no error field
and a first choice `content`, `translateChunk`'s processing reduces to
the `<result>`-tag extraction of `content`. -/
theorem processResponse_ok_choice (content : List Char) (tail : List (List Char)) :
    processResponse (TransportResult.httpResp 200
        (ResponseBody.parsed ⟨content :: tail, none⟩))
      = extractResultTag content := by
  simp [processResponse]

/-- C6: a model response content containing no `<result>…</result>` pair
makes `extractResultTag` fail with "tag <result> not found", and the
translation of the chunk fails with that error — the raw content is never
returned as a fallback. -/
theorem missing_result_tag_fails (content : List Char) (tail : List (List Char))
    (h : ∀ a m c, content ≠ a ++ resultOpenTag ++ m ++ resultCloseTag ++ c) :
    extractResultTag content = Except.error tagNotFoundMsg
    ∧ processResponse (TransportResult.httpResp 200
        (ResponseBody.parsed ⟨content :: tail, none⟩))
      = Except.error tagNotFoundMsg := by
  have hextract : extractResultTag content = Except.error tagNotFoundMsg := by
    cases hfo : findSplit resultOpenTag content with
    | none => simp only [extractResultTag, hfo]
    | some pr1 =>
      obtain ⟨pre, after⟩ := pr1
      have hdec1 := findSplit_sound hfo
      cases hfc : findSplit resultCloseTag after with
      | none => simp only [extractResultTag, hfo, hfc]
      | some pr2 =>
        obtain ⟨m, c2⟩ := pr2
        have hdec2 := findSplit_sound hfc
        exact absurd (by rw [hdec1, hdec2]; simp [List.append_assoc]) (h pre m c2)
  exact ⟨hextract, (processResponse_ok_choice content tail).trans hextract⟩

/-- C6 witness: the tagless content `"hello"` is rejected, both by the
extractor and by the response processing. -/
theorem missing_result_tag_fails_witness :
    extractResultTag (strL "hello") = Except.error tagNotFoundMsg
    ∧ processResponse (TransportResult.httpResp 200
        (ResponseBody.parsed ⟨[strL "hello"], none⟩))
      = Except.error tagNotFoundMsg :=
  missing_result_tag_fails (strL "hello") [] (by
    intro a m c hcontra
    have hlen := congrArg List.length hcontra
    simp only [List.length_append] at hlen
    have h5 : (strL "hello").length = 5 := rfl
    have h8 : resultOpenTag.length = 8 := rfl
    have h9 : resultCloseTag.length = 9 := rfl
    rw [h5, h8, h9] at hlen
    omega)

/-- C10: `extractResultTag` returns the content of the first (leftmost,
shortest, possibly spanning newlines) `<result>…</result>` pair: for any
decomposition whose leading part contains no `"<result>"` and whose
middle contains no `"</result>"`, the middle is returned.  In particular
(see the witness, which instantiates the empty middle), on an input whose
first pair is `<result></result>` the extractor succeeds with the empty
string, and a response carrying an empty result body is accepted rather
than treated as a missing-tag failure. -/
theorem extractResultTag_first_pair (a m c : List Char)
    (ha : ∀ x y, a ≠ x ++ resultOpenTag ++ y)
    (hm : ∀ x y, m ≠ x ++ resultCloseTag ++ y) :
    extractResultTag (a ++ resultOpenTag ++ m ++ resultCloseTag ++ c) = Except.ok m
    ∧ processResponse (TransportResult.httpResp 200 (ResponseBody.parsed
        ⟨[a ++ resultOpenTag ++ m ++ resultCloseTag ++ c], none⟩))
      = Except.ok m := by
  have hshape : a ++ resultOpenTag ++ m ++ resultCloseTag ++ c
      = a ++ resultOpenTag ++ (m ++ resultCloseTag ++ c) := by
    simp [List.append_assoc]
  have h1 : findSplit resultOpenTag (a ++ resultOpenTag ++ (m ++ resultCloseTag ++ c))
      = some (a, m ++ resultCloseTag ++ c) :=
    findSplit_append resultOpenTag_borderless ha (m ++ resultCloseTag ++ c)
  have h2 : findSplit resultCloseTag (m ++ resultCloseTag ++ c) = some (m, c) :=
    findSplit_append resultCloseTag_borderless hm c
  have hextract :
      extractResultTag (a ++ resultOpenTag ++ m ++ resultCloseTag ++ c)
        = Except.ok m := by
    rw [hshape]
    simp only [extractResultTag, h1, h2]
  refine ⟨hextract, ?_⟩
  exact (processResponse_ok_choice _ []).trans hextract

/-- C10 witness: the input `"<result></result>x"` (empty leading part,
empty result body) yields the empty string, and the response processing
accepts it. -/
theorem extractResultTag_first_pair_witness :
    extractResultTag ([] ++ resultOpenTag ++ [] ++ resultCloseTag ++ strL "x")
        = Except.ok []
    ∧ processResponse (TransportResult.httpResp 200 (ResponseBody.parsed
        ⟨[[] ++ resultOpenTag ++ [] ++ resultCloseTag ++ strL "x"], none⟩))
      = Except.ok [] :=
  extractResultTag_first_pair [] [] (strL "x")
    (by
      intro x y hcontra
      have hlen := congrArg List.length hcontra
      simp only [List.length_append, List.length_nil] at hlen
      have h8 : resultOpenTag.length = 8 := rfl
      rw [h8] at hlen
      omega)
    (by
      intro x y hcontra
      have hlen := congrArg List.length hcontra
      simp only [List.length_append, List.length_nil] at hlen
      have h9 : resultCloseTag.length = 9 := rfl
      rw [h9] at hlen
      omega)

/-! ### Pacing delays -/

/-- C8 (amended): the pacing delay slept after every chunk but the last
is 10 ms plus, only when the chunk is strictly longer than 1000 bytes, an
additional `(len / 1000) × 300` ms capped at 1500 ms; a chunk of exactly
1000 bytes (or shorter) gets only the 10 ms base, not base plus 300 ms.
No delay follows the last chunk. -/
theorem pacing_delay_amended (n : Nat) (pre : List (List Char)) (lastChunk : List Char) :
    (1000 < n → pacingDelayMs n = 10 + min (n / 1000 * 300) 1500)
    ∧ (n ≤ 1000 → pacingDelayMs n = 10)
    ∧ pacingSchedule (pre ++ [lastChunk])
        = pre.map (fun c2 => pacingDelayMs c2.length) := by
  refine ⟨?_, ?_, ?_⟩
  · intro h
    rw [pacingDelayMs, if_pos h]
    dsimp only
    split_ifs with h1 <;> omega
  · intro h
    rw [pacingDelayMs, if_neg (by omega)]
  · rw [pacingSchedule, List.dropLast_concat]

/-- C8 amended-claim witness: a two-chunk run sleeps exactly once, after
the first chunk. -/
theorem pacing_delay_amended_witness :
    pacingSchedule [strL "aaaa", strL "bb"] = [pacingDelayMs 4] :=
  (pacing_delay_amended 4 [strL "aaaa"] (strL "bb")).2.2

/-- C8 counterexample: a chunk of exactly 1000 bytes gets only the 10 ms
base delay, not the 310 ms that the claim's formula
`10 + min (1000/1000 × 300) 1500` prescribes — the additional delay only
applies when the length strictly exceeds 1000. -/
theorem pacing_delay_cex :
    pacingDelayMs 1000 = 10
    ∧ pacingDelayMs 1000 ≠ 10 + min (1000 / 1000 * 300) 1500 := by
  decide

end GoAiTranslate
